import Mathlib

/-!
Verification of the covariance-function algebra of the `best` package
(`best.maps.CovarianceFunction`, `CovarianceFunctionSE` and the
`Sum`/`Product` combinators).  The implementation module `best/maps` is not
part of the visible sources (only its unit test
`unit_tests/radial_basis_function.py` and the package `__init__` are), so the
definitions below are modelled from the specification `spec.md` and marked as
such in their doc comments.
-/

namespace Best

/-- Modelled from the spec: error taxonomy of section 7 (`DimensionMismatch`,
`LengthMismatch`, `NotRepresentable`), raised synchronously and never
recovered internally.  The missing code is `best.maps`' exception classes. -/
inductive KError where
  | DimensionMismatch
  | LengthMismatch
  | NotRepresentable
deriving DecidableEq, Repr

/-- Modelled from the spec: the closed kernel algebra of sections 2-4 (design
note 9 maps the dynamic `+`/`*` overloading to a tagged variant type with
`Leaf(SE, params)`, `Sum`, `Product`).  A squared-exponential leaf
(`CovarianceFunctionSE`) stores its `input_dimension` and its mutable
`hyperparameter_vector` (the length-scales: length 1 means isotropic,
otherwise per-dimension).  Composites own their two children; hyperparameters
are the only mutable state.  The missing code is `best.maps`'
`CovarianceFunctionSE` and `CompositeCovarianceFunction`. -/
inductive Kernel where
  | SE (inputDim : ℕ) (hyp : List ℝ)
  | sum (left right : Kernel)
  | prod (left right : Kernel)

namespace Kernel

/-- Modelled from the spec: `input_dimension`, fixed at construction; a
composite shares the (equal, by the construction-time guard) dimension of its
children. -/
def inputDimension : Kernel → ℕ
  | SE d _ => d
  | sum l _ => l.inputDimension
  | prod l _ => l.inputDimension

/-- Modelled from the spec: each node's total hyperparameter count
(`hyperparameter_count()` of design note 85); a composite aggregates its
children's counts. -/
def hypCount : Kernel → ℕ
  | SE _ h => h.length
  | sum l r => l.hypCount + r.hypCount
  | prod l r => l.hypCount + r.hypCount

/-- Modelled from the spec: `get_hyperparameters()` reads the flat
hyperparameter vector, depth-first, left subtree first. -/
def getHyp : Kernel → List ℝ
  | SE _ h => h
  | sum l r => l.getHyp ++ r.getHyp
  | prod l r => l.getHyp ++ r.getHyp

/-- Modelled from the spec: `set_hyperparameters(vector)` writes the flat
hyperparameter vector, recursively consuming a prefix per node in the fixed
depth-first left-first order (design note 85); it fails with `LengthMismatch`
when the supplied vector's length differs from the node's expected count. -/
def setHyp : Kernel → List ℝ → Except KError Kernel
  | SE d h, v =>
      if v.length = h.length then .ok (SE d v) else .error .LengthMismatch
  | sum l r, v => do
      let l' ← l.setHyp (v.take l.hypCount)
      let r' ← r.setHyp (v.drop l.hypCount)
      return sum l' r'
  | prod l r, v => do
      let l' ← l.setHyp (v.take l.hypCount)
      let r' ← r.setHyp (v.drop l.hypCount)
      return prod l' r'

end Kernel

/-- Modelled from the spec: the length-scale applying to coordinate `i`.  A
scalar (length-1) hyperparameter vector is isotropic and applies to every
dimension, otherwise entry `i` applies to dimension `i` (section 4.2). -/
def scaleAt (ell : List ℝ) (i : ℕ) : ℝ :=
  if ell.length = 1 then ell.headI else ell.getD i 1

/-- Modelled from the spec: the per-dimension weighted squared distance
appearing in the squared-exponential kernel, the sum over the `d` coordinates
of `(x i - y i) ^ 2 / (scaleAt ell i) ^ 2`. -/
noncomputable def sqDist (ell : List ℝ) (d : ℕ) (x y : ℕ → ℝ) : ℝ :=
  ∑ i ∈ Finset.range d, (x i - y i) ^ 2 / scaleAt ell i ^ 2

/-- Modelled from the spec: the squared-exponential kernel value
`exp(-dist / 2)` of section 4.2. -/
noncomputable def seKer (ell : List ℝ) (d : ℕ) (x y : ℕ → ℝ) : ℝ :=
  Real.exp (-sqDist ell d x y / 2)

/-- Modelled from the spec: the closed-form squared-exponential derivative of
section 4.2, `-((x i - y i) / scale ^ 2) * k(x, y)` in coordinate `i`. -/
noncomputable def seDeriv (ell : List ℝ) (d : ℕ) (x y : ℕ → ℝ) (i : ℕ) : ℝ :=
  -((x i - y i) / scaleAt ell i ^ 2) * seKer ell d x y

/-- Modelled from the spec: pairwise evaluation of a kernel tree at a single
pair of points with an explicit hyperparameter vector.  A composite splits the
vector into the prefix belonging to `left` (length taken from the child's
hyperparameter count) and the remainder belonging to `right`, and combines the
children elementwise by `+` or `*` (section 4.3). -/
noncomputable def evalWith : Kernel → List ℝ → (ℕ → ℝ) → (ℕ → ℝ) → ℝ
  | .SE d _, hyp, x, y => seKer hyp d x y
  | .sum l r, hyp, x, y =>
      evalWith l (hyp.take l.hypCount) x y + evalWith r (hyp.drop l.hypCount) x y
  | .prod l r, hyp, x, y =>
      evalWith l (hyp.take l.hypCount) x y * evalWith r (hyp.drop l.hypCount) x y

/-- Modelled from the spec: the derivative of a kernel tree with respect to
coordinate `i` of the first argument.  `Sum` adds the children's derivatives,
`Product` uses the product rule `d(f*g) = df*g + f*dg` (section 4.3), with the
same hyperparameter split rule as `evalWith`. -/
noncomputable def derivWith : Kernel → List ℝ → (ℕ → ℝ) → (ℕ → ℝ) → ℕ → ℝ
  | .SE d _, hyp, x, y, i => seDeriv hyp d x y i
  | .sum l r, hyp, x, y, i =>
      derivWith l (hyp.take l.hypCount) x y i
        + derivWith r (hyp.drop l.hypCount) x y i
  | .prod l r, hyp, x, y, i =>
      derivWith l (hyp.take l.hypCount) x y i
          * evalWith r (hyp.drop l.hypCount) x y
        + evalWith l (hyp.take l.hypCount) x y
          * derivWith r (hyp.drop l.hypCount) x y i

/-- Modelled from the spec: `evaluate(x, y, hyp=None)` on batched inputs `x`
(`m` points) and `y` (`n` points), returning the `[m, n]` matrix of pairwise
kernel values (section 4.1).  When `hyp` is omitted (`none`) the stored
`hyperparameter_vector` is used; when provided it is used transiently for this
call only. -/
noncomputable def evaluate (k : Kernel) {m n : ℕ} (x : Fin m → ℕ → ℝ)
    (y : Fin n → ℕ → ℝ) (hyp : Option (List ℝ)) : Matrix (Fin m) (Fin n) ℝ :=
  Matrix.of fun i j => evalWith k (hyp.getD k.getHyp) (x i) (y j)

/-- Modelled from the spec: `derivative(x, y, hyp=None)` on batched inputs,
returning the `[m, n, d]` array of pairwise derivatives with respect to the
coordinates of the first argument (section 4.1). -/
noncomputable def derivative (k : Kernel) {m n : ℕ} (x : Fin m → ℕ → ℝ)
    (y : Fin n → ℕ → ℝ) (hyp : Option (List ℝ)) : Fin m → Fin n → ℕ → ℝ :=
  fun i j c => derivWith k (hyp.getD k.getHyp) (x i) (y j) c

/-- Modelled from the spec: a single `evaluate` call seen as a state
transformer on the kernel object.  Section 4.1 states that an explicit `hyp`
is used transiently for the call only, without mutating stored state, so the
call returns the result together with the unchanged kernel object. -/
noncomputable def evaluateCall (k : Kernel) {m n : ℕ} (x : Fin m → ℕ → ℝ)
    (y : Fin n → ℕ → ℝ) (hyp : Option (List ℝ)) :
    Matrix (Fin m) (Fin n) ℝ × Kernel :=
  (evaluate k x y hyp, k)

/-- Modelled from the spec: a single `derivative` call seen as a state
transformer on the kernel object.  Section 4.1's transient-`hyp` rule applies
to every operation of the contract, so the call returns the result together
with the unchanged kernel object. -/
noncomputable def derivativeCall (k : Kernel) {m n : ℕ} (x : Fin m → ℕ → ℝ)
    (y : Fin n → ℕ → ℝ) (hyp : Option (List ℝ)) :
    (Fin m → Fin n → ℕ → ℝ) × Kernel :=
  (derivative k x y hyp, k)

/-- Modelled from the spec: operator composition `__add__` returns a new `Sum`
composite and fails with `DimensionMismatch` when the operands' input
dimensions differ (sections 4.1 and 7). -/
def addK (f g : Kernel) : Except KError Kernel :=
  if f.inputDimension = g.inputDimension then .ok (.sum f g)
  else .error .DimensionMismatch

/-- Modelled from the spec: operator composition `__mul__` returns a new
`Product` composite and fails with `DimensionMismatch` when the operands'
input dimensions differ (sections 4.1 and 7). -/
def mulK (f g : Kernel) : Except KError Kernel :=
  if f.inputDimension = g.inputDimension then .ok (.prod f g)
  else .error .DimensionMismatch

/-- Modelled from the spec: the input-contract check of `evaluate` — every
supplied point must have exactly `input_dimension` coordinates
(`x.shape[-1] == input_dimension`, section 4.1). -/
def dimsOk (k : Kernel) (x : List (List ℝ)) : Prop :=
  ∀ p ∈ x, p.length = k.inputDimension

instance (k : Kernel) (x : List (List ℝ)) : Decidable (dimsOk k x) :=
  inferInstanceAs (Decidable (∀ p ∈ x, p.length = k.inputDimension))

/-- Modelled from the spec: the checked boundary form of `evaluate` on
list-shaped batches; it raises `DimensionMismatch` when the trailing dimension
of either input disagrees with the kernel's `input_dimension`, and otherwise
returns the `[m, n]` result (sections 4.1, 6 and 7). -/
noncomputable def evaluateChecked (k : Kernel) (x y : List (List ℝ))
    (hyp : Option (List ℝ)) : Except KError (List (List ℝ)) :=
  if dimsOk k x ∧ dimsOk k y then
    .ok (x.map fun p => y.map fun q =>
      evalWith k (hyp.getD k.getHyp) (fun i => p.getD i 0) (fun i => q.getD i 0))
  else .error .DimensionMismatch

/-- The kernel produced by a successful `setHyp` call: every leaf's stored
vector is replaced by its depth-first slice of the supplied vector.  Used to
characterize `Kernel.setHyp`. -/
def setHypF : Kernel → List ℝ → Kernel
  | .SE d _, v => .SE d v
  | .sum l r, v => .sum (setHypF l (v.take l.hypCount)) (setHypF r (v.drop l.hypCount))
  | .prod l r, v => .prod (setHypF l (v.take l.hypCount)) (setHypF r (v.drop l.hypCount))

/-- A batch holding the single one-dimensional point `[[a]]`; used by the
concrete-scenario theorem and by the witnesses. -/
def pt (a : ℝ) : Fin 1 → ℕ → ℝ := fun _ _ => a

theorem length_getHyp (k : Kernel) : k.getHyp.length = k.hypCount := by
  induction k with
  | SE d h => rfl
  | sum l r ihl ihr => simp [Kernel.getHyp, Kernel.hypCount, ihl, ihr]
  | prod l r ihl ihr => simp [Kernel.getHyp, Kernel.hypCount, ihl, ihr]

theorem setHyp_getHyp (k : Kernel) : k.setHyp k.getHyp = .ok k := by
  induction k with
  | SE d h => simp [Kernel.setHyp, Kernel.getHyp]
  | sum l r ihl ihr =>
      simp [Kernel.setHyp, Kernel.getHyp, List.take_left' (length_getHyp l),
        List.drop_left' (length_getHyp l), ihl, ihr]
      rfl
  | prod l r ihl ihr =>
      simp [Kernel.setHyp, Kernel.getHyp, List.take_left' (length_getHyp l),
        List.drop_left' (length_getHyp l), ihl, ihr]
      rfl

theorem setHyp_of_length (k : Kernel) (v : List ℝ) (h : v.length = k.hypCount) :
    k.setHyp v = .ok (setHypF k v) := by
  induction k generalizing v with
  | SE d hh => simp_all [Kernel.setHyp, Kernel.hypCount, setHypF]
  | sum l r ihl ihr =>
      have ht : (v.take l.hypCount).length = l.hypCount := by
        simp [Kernel.hypCount] at h; simp [List.length_take]; omega
      have hd : (v.drop l.hypCount).length = r.hypCount := by
        simp [Kernel.hypCount] at h; simp [List.length_drop]; omega
      simp [Kernel.setHyp, ihl _ ht, ihr _ hd, setHypF]
      rfl
  | prod l r ihl ihr =>
      have ht : (v.take l.hypCount).length = l.hypCount := by
        simp [Kernel.hypCount] at h; simp [List.length_take]; omega
      have hd : (v.drop l.hypCount).length = r.hypCount := by
        simp [Kernel.hypCount] at h; simp [List.length_drop]; omega
      simp [Kernel.setHyp, ihl _ ht, ihr _ hd, setHypF]
      rfl

theorem setHyp_of_length_ne (k : Kernel) (v : List ℝ) (h : v.length ≠ k.hypCount) :
    k.setHyp v = .error .LengthMismatch := by
  induction k generalizing v with
  | SE d hh => simp_all [Kernel.setHyp, Kernel.hypCount]
  | sum l r ihl ihr =>
      by_cases hle : l.hypCount ≤ v.length
      · have ht : (v.take l.hypCount).length = l.hypCount := by
          simp [List.length_take]; omega
        have hd : (v.drop l.hypCount).length ≠ r.hypCount := by
          simp [Kernel.hypCount] at h; simp [List.length_drop]; omega
        simp [Kernel.setHyp, setHyp_of_length l _ ht, ihr _ hd]
        rfl
      · have ht : (v.take l.hypCount).length ≠ l.hypCount := by
          simp [List.length_take]; omega
        simp [Kernel.setHyp, ihl _ ht]
        rfl
  | prod l r ihl ihr =>
      by_cases hle : l.hypCount ≤ v.length
      · have ht : (v.take l.hypCount).length = l.hypCount := by
          simp [List.length_take]; omega
        have hd : (v.drop l.hypCount).length ≠ r.hypCount := by
          simp [Kernel.hypCount] at h; simp [List.length_drop]; omega
        simp [Kernel.setHyp, setHyp_of_length l _ ht, ihr _ hd]
        rfl
      · have ht : (v.take l.hypCount).length ≠ l.hypCount := by
          simp [List.length_take]; omega
        simp [Kernel.setHyp, ihl _ ht]
        rfl

theorem setHyp_ok_elim {k k' : Kernel} {v : List ℝ} (hset : k.setHyp v = .ok k') :
    v.length = k.hypCount ∧ k' = setHypF k v := by
  by_cases h : v.length = k.hypCount
  · rw [setHyp_of_length k v h] at hset
    exact ⟨h, (Except.ok.injEq _ _ ▸ hset).symm⟩
  · rw [setHyp_of_length_ne k v h] at hset
    exact absurd hset (by simp)

theorem getHyp_setHypF (k : Kernel) (v : List ℝ) (h : v.length = k.hypCount) :
    (setHypF k v).getHyp = v := by
  induction k generalizing v with
  | SE d hh => rfl
  | sum l r ihl ihr =>
      have ht : (v.take l.hypCount).length = l.hypCount := by
        simp [Kernel.hypCount] at h; simp [List.length_take]; omega
      have hd : (v.drop l.hypCount).length = r.hypCount := by
        simp [Kernel.hypCount] at h; simp [List.length_drop]; omega
      simp [setHypF, Kernel.getHyp, ihl _ ht, ihr _ hd]
  | prod l r ihl ihr =>
      have ht : (v.take l.hypCount).length = l.hypCount := by
        simp [Kernel.hypCount] at h; simp [List.length_take]; omega
      have hd : (v.drop l.hypCount).length = r.hypCount := by
        simp [Kernel.hypCount] at h; simp [List.length_drop]; omega
      simp [setHypF, Kernel.getHyp, ihl _ ht, ihr _ hd]

theorem hypCount_setHypF (k : Kernel) (v : List ℝ) (h : v.length = k.hypCount) :
    (setHypF k v).hypCount = k.hypCount := by
  induction k generalizing v with
  | SE d hh => simpa [setHypF, Kernel.hypCount] using h
  | sum l r ihl ihr =>
      have ht : (v.take l.hypCount).length = l.hypCount := by
        simp [Kernel.hypCount] at h; simp [List.length_take]; omega
      have hd : (v.drop l.hypCount).length = r.hypCount := by
        simp [Kernel.hypCount] at h; simp [List.length_drop]; omega
      simp [setHypF, Kernel.hypCount, ihl _ ht, ihr _ hd]
  | prod l r ihl ihr =>
      have ht : (v.take l.hypCount).length = l.hypCount := by
        simp [Kernel.hypCount] at h; simp [List.length_take]; omega
      have hd : (v.drop l.hypCount).length = r.hypCount := by
        simp [Kernel.hypCount] at h; simp [List.length_drop]; omega
      simp [setHypF, Kernel.hypCount, ihl _ ht, ihr _ hd]

theorem evalWith_setHypF (k : Kernel) (v : List ℝ) (h : v.length = k.hypCount)
    (w : List ℝ) (x y : ℕ → ℝ) : evalWith (setHypF k v) w x y = evalWith k w x y := by
  induction k generalizing v w with
  | SE d hh => rfl
  | sum l r ihl ihr =>
      have ht : (v.take l.hypCount).length = l.hypCount := by
        simp [Kernel.hypCount] at h; simp [List.length_take]; omega
      have hd : (v.drop l.hypCount).length = r.hypCount := by
        simp [Kernel.hypCount] at h; simp [List.length_drop]; omega
      simp [setHypF, evalWith, hypCount_setHypF l _ ht, ihl _ ht, ihr _ hd]
  | prod l r ihl ihr =>
      have ht : (v.take l.hypCount).length = l.hypCount := by
        simp [Kernel.hypCount] at h; simp [List.length_take]; omega
      have hd : (v.drop l.hypCount).length = r.hypCount := by
        simp [Kernel.hypCount] at h; simp [List.length_drop]; omega
      simp [setHypF, evalWith, hypCount_setHypF l _ ht, ihl _ ht, ihr _ hd]

theorem derivWith_setHypF (k : Kernel) (v : List ℝ) (h : v.length = k.hypCount)
    (w : List ℝ) (x y : ℕ → ℝ) (i : ℕ) :
    derivWith (setHypF k v) w x y i = derivWith k w x y i := by
  induction k generalizing v w with
  | SE d hh => rfl
  | sum l r ihl ihr =>
      have ht : (v.take l.hypCount).length = l.hypCount := by
        simp [Kernel.hypCount] at h; simp [List.length_take]; omega
      have hd : (v.drop l.hypCount).length = r.hypCount := by
        simp [Kernel.hypCount] at h; simp [List.length_drop]; omega
      simp [setHypF, derivWith, hypCount_setHypF l _ ht, ihl _ ht, ihr _ hd]
  | prod l r ihl ihr =>
      have ht : (v.take l.hypCount).length = l.hypCount := by
        simp [Kernel.hypCount] at h; simp [List.length_take]; omega
      have hd : (v.drop l.hypCount).length = r.hypCount := by
        simp [Kernel.hypCount] at h; simp [List.length_drop]; omega
      simp [setHypF, derivWith, hypCount_setHypF l _ ht, ihl _ ht, ihr _ hd,
        evalWith_setHypF l _ ht, evalWith_setHypF r _ hd]

theorem evalWith_symm (k : Kernel) (v : List ℝ) (x y : ℕ → ℝ) :
    evalWith k v x y = evalWith k v y x := by
  induction k generalizing v with
  | SE d hh =>
      simp only [evalWith, seKer, sqDist]
      rw [Finset.sum_congr rfl fun i _ => show
        (x i - y i) ^ 2 / scaleAt v i ^ 2 = (y i - x i) ^ 2 / scaleAt v i ^ 2 by ring]
  | sum l r ihl ihr => simp only [evalWith, ihl, ihr]
  | prod l r ihl ihr => simp only [evalWith, ihl, ihr]

theorem hasDerivAt_seKer (ell : List ℝ) (d : ℕ) (X Y : ℕ → ℝ) (c : ℕ)
    (hc : c < d) :
    HasDerivAt (fun t => seKer ell d (Function.update X c t) Y)
      (seDeriv ell d X Y c) (X c) := by
  have hmem : c ∈ Finset.range d := Finset.mem_range.mpr hc
  have hsplit : ∀ t : ℝ, sqDist ell d (Function.update X c t) Y
      = (t - Y c) ^ 2 / scaleAt ell c ^ 2
        + ∑ i ∈ (Finset.range d).erase c, (X i - Y i) ^ 2 / scaleAt ell i ^ 2 := by
    intro t
    unfold sqDist
    rw [← Finset.add_sum_erase _ _ hmem]
    congr 1
    · rw [Function.update_same]
    · exact Finset.sum_congr rfl fun i hi => by
        rw [Function.update_noteq (Finset.ne_of_mem_erase hi)]
  have hfun : (fun t => seKer ell d (Function.update X c t) Y)
      = fun t => Real.exp (-((t - Y c) ^ 2 / scaleAt ell c ^ 2
          + ∑ i ∈ (Finset.range d).erase c, (X i - Y i) ^ 2 / scaleAt ell i ^ 2) / 2) := by
    funext t
    simp only [seKer, hsplit t]
  have hbase : HasDerivAt (fun t : ℝ => t - Y c) 1 (X c) :=
    (hasDerivAt_id _).sub_const _
  have hinner := (((hbase.pow 2).div_const (scaleAt ell c ^ 2)).add_const
    (∑ i ∈ (Finset.range d).erase c, (X i - Y i) ^ 2 / scaleAt ell i ^ 2))
  have hexp := (hinner.neg.div_const 2).exp
  rw [hfun]
  convert hexp using 1
  have hD : sqDist ell d X Y
      = (X c - Y c) ^ 2 / scaleAt ell c ^ 2
        + ∑ i ∈ (Finset.range d).erase c, (X i - Y i) ^ 2 / scaleAt ell i ^ 2 := by
    have h0 := hsplit (X c)
    rwa [Function.update_eq_self] at h0
  simp only [seDeriv, seKer, hD]
  ring

/-- Claim C1: for covariance functions `f`, `g`, batched inputs and a
concatenated hyperparameter vector whose prefix has the left child's
hyperparameter count, `(f + g).evaluate` is the elementwise sum and
`(f * g).evaluate` the elementwise product of the children evaluated on their
slices, the prefix going to the left child and the remainder to the right. -/
theorem claim_sum_prod_evaluate_split (f g : Kernel) (hl hr : List ℝ)
    (h : hl.length = f.hypCount) {m n : ℕ} (x : Fin m → ℕ → ℝ)
    (y : Fin n → ℕ → ℝ) (i : Fin m) (j : Fin n) :
    evaluate (.sum f g) x y (some (hl ++ hr)) i j
        = evaluate f x y (some hl) i j + evaluate g x y (some hr) i j
    ∧ evaluate (.prod f g) x y (some (hl ++ hr)) i j
        = evaluate f x y (some hl) i j * evaluate g x y (some hr) i j := by
  constructor <;>
    simp [evaluate, evalWith, List.take_left' h, List.drop_left' h]

/-- Witness for `claim_sum_prod_evaluate_split` at two concrete
one-dimensional squared-exponential leaves and concrete points. -/
theorem claim_sum_prod_evaluate_split_witness :
    evaluate (Kernel.sum (.SE 1 [1]) (.SE 1 [2])) (pt 0) (pt 1)
          (some ([1] ++ [3])) 0 0
        = evaluate (Kernel.SE 1 [1]) (pt 0) (pt 1) (some [1]) 0 0
          + evaluate (Kernel.SE 1 [2]) (pt 0) (pt 1) (some [3]) 0 0
    ∧ evaluate (Kernel.prod (.SE 1 [1]) (.SE 1 [2])) (pt 0) (pt 1)
          (some ([1] ++ [3])) 0 0
        = evaluate (Kernel.SE 1 [1]) (pt 0) (pt 1) (some [1]) 0 0
          * evaluate (Kernel.SE 1 [2]) (pt 0) (pt 1) (some [3]) 0 0 :=
  claim_sum_prod_evaluate_split (.SE 1 [1]) (.SE 1 [2]) [1] [3] rfl
    (pt 0) (pt 1) 0 0

/-- Claim C2: for any composite tree, `set_hyperparameters(get_hyperparameters())`
succeeds and is a no-op: the resulting kernel is the original one, so every
subsequent `evaluate` call returns the same output. -/
theorem claim_hyperparameter_roundtrip (k : Kernel) {m n : ℕ}
    (x : Fin m → ℕ → ℝ) (y : Fin n → ℕ → ℝ) (hyp : Option (List ℝ)) :
    ∃ k', k.setHyp k.getHyp = .ok k'
      ∧ evaluate k' x y hyp = evaluate k x y hyp :=
  ⟨k, setHyp_getHyp k, rfl⟩

/-- Claim C3: the 1-D isotropic squared-exponential kernel with length-scale 1
gives `evaluate([[0]], [[0]]) = 1` and `evaluate([[0]], [[1]]) = exp(-1/2)`,
and the sum of two such kernels with hyperparameters `[1, 1.2]` gives
`evaluate([[0]], [[1]]) = exp(-1/2) + exp(-1/(2*1.44))`. -/
theorem claim_se_concrete_values :
    evaluate (Kernel.SE 1 [1]) (pt 0) (pt 0) none 0 0 = 1
    ∧ evaluate (Kernel.SE 1 [1]) (pt 0) (pt 1) none 0 0 = Real.exp (-(1 / 2))
    ∧ ∃ h', (Kernel.sum (.SE 1 [1]) (.SE 1 [1])).setHyp [1, 1.2] = .ok h'
        ∧ evaluate h' (pt 0) (pt 1) none 0 0
            = Real.exp (-(1 / 2)) + Real.exp (-(1 / (2 * 1.44))) := by
  refine ⟨?_, ?_, Kernel.sum (.SE 1 [1]) (.SE 1 [1.2]), ?_, ?_⟩
  · norm_num [evaluate, evalWith, seKer, sqDist, scaleAt, pt, Kernel.getHyp,
      List.headI]
  · norm_num [evaluate, evalWith, seKer, sqDist, scaleAt, pt, Kernel.getHyp,
      List.headI]
  · rfl
  · norm_num [evaluate, evalWith, seKer, sqDist, scaleAt, pt, Kernel.getHyp,
      Kernel.hypCount, List.headI]

/-- Claim C4: for the squared-exponential leaf, `derivative` returns the
closed form `-((x i - y j) / l^2) * k(x i, y j)` for each pair and each of the
`d` coordinate axes, and this value is the true partial derivative of
`evaluate` in that coordinate of the first argument (hence matches a central
finite-difference approximation of `evaluate` in the limit). -/
theorem claim_se_derivative_closed_form {m n : ℕ} (d : ℕ) (ell : List ℝ)
    (x : Fin m → ℕ → ℝ) (y : Fin n → ℕ → ℝ) (i : Fin m) (j : Fin n) (c : ℕ)
    (hc : c < d) (_hs : scaleAt ell c ≠ 0) :
    derivative (.SE d ell) x y (some ell) i j c
        = -((x i c - y j c) / scaleAt ell c ^ 2)
          * evaluate (.SE d ell) x y (some ell) i j
    ∧ HasDerivAt
        (fun t => evalWith (.SE d ell) ell (Function.update (x i) c t) (y j))
        (derivative (.SE d ell) x y (some ell) i j c) (x i c) :=
  ⟨rfl, hasDerivAt_seKer ell d (x i) (y j) c hc⟩

/-- Witness for `claim_se_derivative_closed_form` at the concrete
one-dimensional leaf with length-scale 1 and points `[[0]]`, `[[1]]`. -/
theorem claim_se_derivative_closed_form_witness :
    (derivative (Kernel.SE 1 [1]) (pt 0) (pt 1) (some [1]) 0 0 0
        = -((pt 0 0 0 - pt 1 0 0) / scaleAt [1] 0 ^ 2)
          * evaluate (Kernel.SE 1 [1]) (pt 0) (pt 1) (some [1]) 0 0)
    ∧ HasDerivAt
        (fun t => evalWith (Kernel.SE 1 [1]) [1]
          (Function.update (pt 0 0) 0 t) (pt 1 0))
        (derivative (Kernel.SE 1 [1]) (pt 0) (pt 1) (some [1]) 0 0 0)
        (pt 0 0 0) :=
  claim_se_derivative_closed_form 1 [1] (pt 0) (pt 1) 0 0 0 (by decide)
    (by norm_num [scaleAt, List.headI])

/-- Claim C5: the derivative of a `Product` composite follows the product rule
`d(f*g) = df*g + f*dg`, the `[m,n]` evaluations broadcasting over the trailing
coordinate axis of the `[m,n,d]` derivatives, with the same hyperparameter
split between the children. -/
theorem claim_product_derivative_rule (f g : Kernel) (hl hr : List ℝ)
    (h : hl.length = f.hypCount) {m n : ℕ} (x : Fin m → ℕ → ℝ)
    (y : Fin n → ℕ → ℝ) (i : Fin m) (j : Fin n) (c : ℕ) :
    derivative (.prod f g) x y (some (hl ++ hr)) i j c
      = derivative f x y (some hl) i j c * evaluate g x y (some hr) i j
        + evaluate f x y (some hl) i j * derivative g x y (some hr) i j c := by
  simp [derivative, derivWith, evaluate, List.take_left' h, List.drop_left' h]

/-- Witness for `claim_product_derivative_rule` at two concrete
one-dimensional squared-exponential leaves and concrete points. -/
theorem claim_product_derivative_rule_witness :
    derivative (Kernel.prod (.SE 1 [1]) (.SE 1 [2])) (pt 0) (pt 1)
        (some ([1] ++ [3])) 0 0 0
      = derivative (Kernel.SE 1 [1]) (pt 0) (pt 1) (some [1]) 0 0 0
          * evaluate (Kernel.SE 1 [2]) (pt 0) (pt 1) (some [3]) 0 0
        + evaluate (Kernel.SE 1 [1]) (pt 0) (pt 1) (some [1]) 0 0
          * derivative (Kernel.SE 1 [2]) (pt 0) (pt 1) (some [3]) 0 0 0 :=
  claim_product_derivative_rule (.SE 1 [1]) (.SE 1 [2]) [1] [3] rfl
    (pt 0) (pt 1) 0 0 0

/-- Claim C6: an `evaluate` or `derivative` call with an explicit `hyp` uses
that vector for the call only — it computes exactly what a kernel with that
vector stored would compute — and leaves the kernel object, hence its stored
`hyperparameter_vector`, unchanged; a call with `hyp` omitted uses the stored
vector. -/
theorem claim_transient_hyperparameters (k k' : Kernel) (h : List ℝ)
    (hset : k.setHyp h = .ok k') {m n : ℕ} (x : Fin m → ℕ → ℝ)
    (y : Fin n → ℕ → ℝ) :
    (evaluateCall k x y (some h)).2 = k
    ∧ (evaluateCall k x y (some h)).1 = evaluate k' x y none
    ∧ evaluate k x y none = evaluate k x y (some k.getHyp)
    ∧ (derivativeCall k x y (some h)).2 = k
    ∧ (derivativeCall k x y (some h)).1 = derivative k' x y none
    ∧ derivative k x y none = derivative k x y (some k.getHyp) := by
  obtain ⟨hlen, hk'⟩ := setHyp_ok_elim hset
  subst hk'
  refine ⟨rfl, ?_, rfl, rfl, ?_, rfl⟩
  · ext i j
    simp only [evaluateCall, evaluate, Matrix.of_apply, Option.getD_some,
      Option.getD_none]
    rw [getHyp_setHypF k h hlen, evalWith_setHypF k h hlen]
  · funext i j c
    simp only [derivativeCall, derivative, Option.getD_some, Option.getD_none]
    rw [getHyp_setHypF k h hlen, derivWith_setHypF k h hlen]

/-- Witness for `claim_transient_hyperparameters` at a concrete leaf with
stored length-scale 1 and transient length-scale 2, for both `evaluate` and
`derivative`. -/
theorem claim_transient_hyperparameters_witness :
    ((evaluateCall (Kernel.SE 1 [1]) (pt 0) (pt 1) (some [2])).2
        = Kernel.SE 1 [1])
    ∧ (evaluateCall (Kernel.SE 1 [1]) (pt 0) (pt 1) (some [2])).1
        = evaluate (Kernel.SE 1 [2]) (pt 0) (pt 1) none
    ∧ evaluate (Kernel.SE 1 [1]) (pt 0) (pt 1) none
        = evaluate (Kernel.SE 1 [1]) (pt 0) (pt 1)
            (some (Kernel.SE 1 [1]).getHyp)
    ∧ ((derivativeCall (Kernel.SE 1 [1]) (pt 0) (pt 1) (some [2])).2
        = Kernel.SE 1 [1])
    ∧ (derivativeCall (Kernel.SE 1 [1]) (pt 0) (pt 1) (some [2])).1
        = derivative (Kernel.SE 1 [2]) (pt 0) (pt 1) none
    ∧ derivative (Kernel.SE 1 [1]) (pt 0) (pt 1) none
        = derivative (Kernel.SE 1 [1]) (pt 0) (pt 1)
            (some (Kernel.SE 1 [1]).getHyp) :=
  claim_transient_hyperparameters (Kernel.SE 1 [1]) (Kernel.SE 1 [2]) [2] rfl
    (pt 0) (pt 1)

/-- Claim C7: for every kernel built from Sum/Product compositions of
squared-exponential leaves and every hyperparameter vector (explicit or
stored), `evaluate(x, y, hyp)` is the transpose of `evaluate(y, x, hyp)`. -/
theorem claim_evaluate_symmetry (k : Kernel) {m n : ℕ} (x : Fin m → ℕ → ℝ)
    (y : Fin n → ℕ → ℝ) (hyp : Option (List ℝ)) :
    evaluate k x y hyp = (evaluate k y x hyp).transpose := by
  ext i j
  simp only [evaluate, Matrix.transpose_apply, Matrix.of_apply]
  exact evalWith_symm k _ (x i) (y j)

/-- Claim C8: combining two kernels with `+` or `*` fails with
`DimensionMismatch` exactly when their input dimensions differ and otherwise
returns the composite, and the checked `evaluate` fails with
`DimensionMismatch` exactly when some supplied point's trailing dimension
differs from the kernel's `input_dimension`, succeeding otherwise. -/
theorem claim_dimension_guard (f g k : Kernel) (x y : List (List ℝ))
    (hyp : Option (List ℝ)) :
    (addK f g = .ok (.sum f g) ↔ f.inputDimension = g.inputDimension)
    ∧ (addK f g = .error .DimensionMismatch
        ↔ f.inputDimension ≠ g.inputDimension)
    ∧ (mulK f g = .ok (.prod f g) ↔ f.inputDimension = g.inputDimension)
    ∧ (mulK f g = .error .DimensionMismatch
        ↔ f.inputDimension ≠ g.inputDimension)
    ∧ ((∃ r, evaluateChecked k x y hyp = .ok r) ↔ dimsOk k x ∧ dimsOk k y)
    ∧ (evaluateChecked k x y hyp = .error .DimensionMismatch
        ↔ ¬(dimsOk k x ∧ dimsOk k y)) := by
  refine ⟨?_, ?_, ?_, ?_, ?_, ?_⟩
  · by_cases hd : f.inputDimension = g.inputDimension <;> simp [addK, hd]
  · by_cases hd : f.inputDimension = g.inputDimension <;> simp [addK, hd]
  · by_cases hd : f.inputDimension = g.inputDimension <;> simp [mulK, hd]
  · by_cases hd : f.inputDimension = g.inputDimension <;> simp [mulK, hd]
  · by_cases hxy : dimsOk k x ∧ dimsOk k y <;> simp [evaluateChecked, hxy]
  · by_cases hxy : dimsOk k x ∧ dimsOk k y <;> simp [evaluateChecked, hxy]

/-- Claim C9: `set_hyperparameters` fails with `LengthMismatch` exactly when
the supplied vector's length differs from the kernel's aggregate
hyperparameter count, and on success the stored flat vector equals the
supplied one. -/
theorem claim_set_hyperparameters_length (k : Kernel) (v : List ℝ) :
    (k.setHyp v = .error .LengthMismatch ↔ v.length ≠ k.hypCount)
    ∧ (v.length = k.hypCount
        → ∃ k', k.setHyp v = .ok k' ∧ k'.getHyp = v) := by
  constructor
  · constructor
    · intro he hlen
      rw [setHyp_of_length k v hlen] at he
      exact absurd he (by simp)
    · exact setHyp_of_length_ne k v
  · intro hlen
    exact ⟨setHypF k v, setHyp_of_length k v hlen, getHyp_setHypF k v hlen⟩

end Best
